import Mathlib

/-!
A shallow embedding of the case-conversion library (`convert_case`): the
boundary catalogue and splitter from `src/boundary.rs`, the word-mutation
patterns from `src/pattern.rs`, the named-case tables from `src/case.rs` and
the `Converter` pipeline from `src/converter.rs` and `src/lib.rs`.

Strings are modelled as `List Char`: every input considered here has one
Unicode scalar value per grapheme cluster, so the grapheme segmentation used
by the source (`unicode_segmentation`) yields exactly the list of characters,
and byte positions produced by `grapheme_indices` are in order-preserving
bijection with character positions.  Case mapping of a single character is
modelled by `Char.toUpper` / `Char.toLower` (the basic-latin restriction of
the Unicode mapping used by Rust's `str::to_uppercase` / `str::to_lowercase`).
Rust's full mapping can expand one character to several (`to_uppercase` maps
ß to "SS"); the single-character mapping used here does not model such
expansions, and every universally quantified statement below whose truth in
the program would be affected by them is restricted to the operations that
are expansion-stable.

Rust slice expressions `&s[a..b]` panic when `a > b`; the splitter is
therefore embedded in `Except Unit`, with `Except.error ()` marking a panic.
-/

namespace ConvertCase

/-- `grapheme_is_digit` from `src/boundary.rs`: all code points of the
grapheme are ASCII digits (one code point per grapheme here). -/
def graphemeIsDigit (c : Char) : Bool :=
  c.isDigit

/-- `grapheme_is_uppercase` from `src/boundary.rs`:
`c.to_uppercase() != c.to_lowercase() && *c == c.to_uppercase()`. -/
def graphemeIsUppercase (c : Char) : Bool :=
  (c.toUpper != c.toLower) && (c == c.toUpper)

/-- `grapheme_is_lowercase` from `src/boundary.rs`:
`c.to_uppercase() != c.to_lowercase() && *c == c.to_lowercase()`. -/
def graphemeIsLowercase (c : Char) : Bool :=
  (c.toUpper != c.toLower) && (c == c.toLower)

/-- The `Boundary` enum from `src/boundary.rs`.  The `Custom` variant carries
the condition (with its `arg` already applied), the cut offset `start` and the
consumption length `len`; its `name` field only serves equality in the source
and is not needed for the properties considered here. -/
inductive Boundary where
  | hyphen
  | underscore
  | space
  | upperLower
  | lowerUpper
  | digitUpper
  | upperDigit
  | digitLower
  | lowerDigit
  | acronym
  | custom (condition : List Char → Bool) (start : Nat) (len : Nat)

/-- `Boundary::matches` from `src/boundary.rs` (lines 423-460): the argument
is the list of graphemes from the current scan position to the end. -/
def Boundary.matches : Boundary → List Char → Bool
  | .underscore, s => s.head? == some '_'
  | .hyphen, s => s.head? == some '-'
  | .space, s => s.head? == some ' '
  | .acronym, s =>
      (s.get? 0).any graphemeIsUppercase && (s.get? 1).any graphemeIsUppercase
        && (s.get? 2).any graphemeIsLowercase
  | .lowerUpper, s =>
      (s.get? 0).any graphemeIsLowercase && (s.get? 1).any graphemeIsUppercase
  | .upperLower, s =>
      (s.get? 0).any graphemeIsUppercase && (s.get? 1).any graphemeIsLowercase
  | .lowerDigit, s =>
      (s.get? 0).any graphemeIsLowercase && (s.get? 1).any graphemeIsDigit
  | .upperDigit, s =>
      (s.get? 0).any graphemeIsUppercase && (s.get? 1).any graphemeIsDigit
  | .digitLower, s =>
      (s.get? 0).any graphemeIsDigit && (s.get? 1).any graphemeIsLowercase
  | .digitUpper, s =>
      (s.get? 0).any graphemeIsDigit && (s.get? 1).any graphemeIsUppercase
  | .custom condition _ _, s => condition s

/-- `Boundary::len` from `src/boundary.rs` (lines 462-470): the number of
graphemes removed when splitting. -/
def Boundary.len : Boundary → Nat
  | .underscore | .hyphen | .space => 1
  | .lowerUpper | .upperLower | .lowerDigit | .upperDigit | .digitLower
  | .digitUpper | .acronym => 0
  | .custom _ _ len => len

/-- `Boundary::start` from `src/boundary.rs` (lines 472-480): the grapheme
offset from the match position to the cut point. -/
def Boundary.start : Boundary → Nat
  | .underscore | .hyphen | .space => 0
  | .lowerUpper | .upperLower | .lowerDigit | .upperDigit | .digitLower
  | .digitUpper | .acronym => 1
  | .custom _ start _ => start

/-- The UTF-8 byte length of a string, as computed by Rust's `str::len`. -/
def utf8Length (d : List Char) : Nat :=
  (d.map Char.utf8Size).sum

/-- `Boundary::from_delim` from `src/boundary.rs` (lines 413-421).  The
condition is `s.join("").starts_with(delim)`, i.e. the delimiter is a prefix
of the remaining input; `start` is `0`; `len` is `delim.len()`, the BYTE
length of the delimiter. -/
def Boundary.from_delim (delim : List Char) : Boundary :=
  .custom (fun s => delim.isPrefixOf s) 0 (utf8Length delim)

/-- `Boundary::defaults` from `src/boundary.rs` (lines 501-513). -/
def Boundary.defaults : List Boundary :=
  [.underscore, .hyphen, .space, .lowerUpper, .lowerDigit, .upperDigit,
    .digitLower, .digitUpper, .acronym]

/-- The contiguous slice `&s[a..b]` of a string, for `a ≤ b` (both at
character positions). -/
def sliceCL (s : List Char) (a b : Nat) : List Char :=
  (s.drop a).take (b - a)

/-- The loop of `split` from `src/boundary.rs` (lines 638-660): `rem` is
`graphemes[i..]`, `last` is `last_boundary_end` and `words` the accumulator.
The clamping `indices.get(..).unwrap_or(&grapheme_length)` is `min _
s.length`.  Rust's `words.push(&s[last..cutStart])` panics when `last >
cutStart`; this is `Except.error ()`. -/
def splitGo (s : List Char) (boundaries : List Boundary) :
    List Char → Nat → Nat → List (List Char) →
    Except Unit (Nat × List (List Char))
  | [], _, last, words => Except.ok (last, words)
  | _ :: rest, i, last, words =>
    match boundaries.find? (fun b => b.matches (s.drop i)) with
    | none => splitGo s boundaries rest (i + 1) last words
    | some b =>
      let cutStart := min (i + b.start) s.length
      let cutEnd := min (i + b.start + b.len) s.length
      if last ≤ cutStart then
        splitGo s boundaries rest (i + 1) cutEnd (words ++ [sliceCL s last cutStart])
      else
        Except.error ()

/-- `split` from `src/boundary.rs` (lines 618-663): early return on empty
input, the scan loop, the trailing word, then the filter that drops empty
words (`.filter(|s| !s.is_empty())`, line 662). -/
def split (s : List Char) (boundaries : List Boundary) :
    Except Unit (List (List Char)) :=
  if s.length = 0 then Except.ok [] else
    match splitGo s boundaries s 0 0 [] with
    | Except.error e => Except.error e
    | Except.ok (last, words) =>
        Except.ok ((words ++ [sliceCL s last s.length]).filter (fun w => !w.isEmpty))

/-- `word_pattern::lowercase` from `src/pattern.rs`. -/
def wordLowercase (w : List Char) : List Char :=
  w.map Char.toLower

/-- `word_pattern::uppercase` from `src/pattern.rs`. -/
def wordUppercase (w : List Char) : List Char :=
  w.map Char.toUpper

/-- `word_pattern::capital` from `src/pattern.rs`: first grapheme uppercased,
remainder lowercased; the empty word maps to the empty string.  The source
uppercases the first grapheme with `str::to_uppercase`, whose multi-character
expansions (ß to "SS") are outside the single-character mapping used here, so
no statement in this file relies on `wordCapital` applied to an
expansion-affected character. -/
def wordCapital : List Char → List Char
  | [] => []
  | c :: rest => c.toUpper :: rest.map Char.toLower

/-- `word_pattern::toggle` from `src/pattern.rs`: first grapheme lowercased,
remainder uppercased; the empty word maps to the empty string. -/
def wordToggle : List Char → List Char
  | [] => []
  | c :: rest => c.toLower :: rest.map Char.toUpper

/-- One step of the `Alternating` pattern from `src/pattern.rs` (lines
174-196): a cased letter flips the `upper` flag and is re-cased accordingly,
any other character is kept and the flag is unchanged.  The source re-cases
with `char::to_uppercase`/`to_lowercase`, which can emit several characters
(ß to "SS"); that expansion is outside the single-character mapping used
here, so no statement in this file relies on `altChar` at an
expansion-affected character. -/
def altChar (upper : Bool) (c : Char) : Bool × Char :=
  if c.isUpper || c.isLower then
    if upper then (false, c.toUpper) else (true, c.toLower)
  else
    (upper, c)

/-- The `Alternating` pattern on one word, threading the flag. -/
def altWord : Bool → List Char → Bool × List Char
  | u, [] => (u, [])
  | u, c :: rest =>
    ((altWord (altChar u c).1 rest).1,
      (altChar u c).2 :: (altWord (altChar u c).1 rest).2)

/-- The `Alternating` pattern on a word sequence: the flag crosses word
boundaries, starting at `false` (first cased letter lowercased). -/
def altWords : Bool → List (List Char) → List (List Char)
  | _, [] => []
  | u, w :: ws => (altWord u w).2 :: altWords (altWord u w).1 ws

/-- The `Pattern` enum from `src/pattern.rs` (lines 113-128), plus
`removeEmpty`.  `removeEmpty` is modelled from the spec: `src/lib.rs`
(line 482) pushes `pattern::Pattern::RemoveEmpty` but the variant and its
`mutate` arm are absent from `src/pattern.rs`; the spec says the pattern
"filters out zero-length words". -/
inductive Pattern where
  | custom (f : List (List Char) → List (List Char))
  | noop
  | lowercase
  | uppercase
  | capital
  | camel
  | sentence
  | toggle
  | alternating
  | removeEmpty

/-- `Pattern::mutate` from `src/pattern.rs` (lines 131-196).  `Camel` and
`Sentence` enumerate the words and treat index `0` specially, which is the
head/tail split written here.  The `removeEmpty` arm is modelled from the
spec (see `Pattern`). -/
def Pattern.mutate : Pattern → List (List Char) → List (List Char)
  | .custom f, words => f words
  | .noop, words => words
  | .lowercase, words => words.map wordLowercase
  | .uppercase, words => words.map wordUppercase
  | .capital, words => words.map wordCapital
  | .camel, words =>
    match words with
    | [] => []
    | w :: rest => wordLowercase w :: rest.map wordCapital
  | .sentence, words =>
    match words with
    | [] => []
    | w :: rest => wordCapital w :: rest.map wordLowercase
  | .toggle, words => words.map wordToggle
  | .alternating, words => altWords false words
  | .removeEmpty, words => words.filter (fun w => !w.isEmpty)

/-- The `Case` enum from `src/case.rs`, restricted to the deterministic
variants (the `random` feature is disabled by default).  `Custom` carries the
boundaries, pattern and delimiter, as in the source. -/
inductive Case where
  | upper
  | lower
  | title
  | sentence
  | toggle
  | camel
  | pascal
  | upperCamel
  | snake
  | constant
  | upperSnake
  | ada
  | kebab
  | cobol
  | upperKebab
  | train
  | flat
  | upperFlat
  | alternating
  | custom (boundaries : List Boundary) (pattern : Pattern) (delim : List Char)

/-- `Case::boundaries` from `src/case.rs` (lines 472-492). -/
def Case.boundaries : Case → List Boundary
  | .upper | .lower | .title | .sentence | .toggle | .alternating => [.space]
  | .snake | .constant | .upperSnake | .ada => [.underscore]
  | .kebab | .cobol | .upperKebab | .train => [.hyphen]
  | .upperFlat | .flat => []
  | .camel | .upperCamel | .pascal =>
      [.lowerUpper, .acronym, .lowerDigit, .upperDigit, .digitLower, .digitUpper]
  | .custom boundaries _ _ => boundaries

/-- `Case::delim` from `src/case.rs` (lines 503-515). -/
def Case.delim : Case → List Char
  | .upper | .lower | .title | .sentence | .toggle | .alternating => [' ']
  | .snake | .constant | .upperSnake | .ada => ['_']
  | .kebab | .cobol | .upperKebab | .train => ['-']
  | .upperFlat | .flat | .camel | .upperCamel | .pascal => []
  | .custom _ _ delim => delim

/-- `Case::pattern` from `src/case.rs` (lines 529-546). -/
def Case.pattern : Case → Pattern
  | .upper | .constant | .upperSnake | .upperFlat | .cobol | .upperKebab => .uppercase
  | .lower | .snake | .kebab | .flat => .lowercase
  | .title | .pascal | .upperCamel | .train | .ada => .capital
  | .camel => .camel
  | .toggle => .toggle
  | .alternating => .alternating
  | .sentence => .sentence
  | .custom _ pattern _ => pattern

/-- `Vec::join` with separator, as used by `Converter::convert`. -/
def joinList (sep : List Char) : List (List Char) → List Char
  | [] => []
  | [w] => w
  | w :: ws => w ++ sep ++ joinList sep ws

/-- The `Converter` struct from `src/converter.rs` (lines 60-69). -/
structure Converter where
  boundaries : List Boundary
  patterns : List Pattern
  delimiter : List Char

/-- `Converter::new` / `Converter::default` from `src/converter.rs`
(lines 71-92): default boundaries, no patterns, empty delimiter. -/
def Converter.new : Converter :=
  { boundaries := Boundary.defaults, patterns := [], delimiter := [] }

/-- `Converter::convert` from `src/converter.rs` (lines 101-121): split, then
either pass the words through unchanged (no patterns) or fold the patterns in
order, then join with the delimiter. -/
def Converter.convert (conv : Converter) (s : List Char) :
    Except Unit (List Char) :=
  match split s conv.boundaries with
  | Except.error e => Except.error e
  | Except.ok words =>
    match conv.patterns with
    | [] => Except.ok (joinList conv.delimiter words)
    | p :: ps =>
        Except.ok (joinList conv.delimiter
          (ps.foldl (fun ws q => q.mutate ws) (p.mutate words)))

/-- `Converter::to_case` from `src/converter.rs` (lines 130-134): push the
case's pattern and set the delimiter (`case.delim()` per `src/case.rs`). -/
def Converter.to_case (conv : Converter) (c : Case) : Converter :=
  { conv with patterns := conv.patterns ++ [c.pattern], delimiter := c.delim }

/-- `Converter::from_case` from `src/converter.rs` (lines 145-148): replace
the boundaries with the case's boundaries. -/
def Converter.from_case (conv : Converter) (c : Case) : Converter :=
  { conv with boundaries := c.boundaries }

/-- `Converter::add_pattern` from `src/converter.rs` (lines 264-267). -/
def Converter.add_pattern (conv : Converter) (p : Pattern) : Converter :=
  { conv with patterns := conv.patterns ++ [p] }

/-- `StateConverter::remove_empty` from `src/lib.rs` (lines 479-484), acting
on the stored converter: append the `RemoveEmpty` pattern. -/
def Converter.remove_empty (conv : Converter) : Converter :=
  conv.add_pattern .removeEmpty

/-- `s.from_case(C).to_case(D)` from the `Casing` trait in `src/lib.rs`:
a fresh `Converter::new`, boundaries from `C`, pattern and delimiter from
`D`, applied to `s`. -/
def fromCaseToCase (c d : Case) (s : List Char) : Except Unit (List Char) :=
  ((Converter.new.from_case c).to_case d).convert s

/-- `Casing::to_case` from `src/lib.rs`: conversion with the default
boundaries. -/
def casingToCase (c : Case) (s : List Char) : Except Unit (List Char) :=
  (Converter.new.to_case c).convert s

/-- The deterministic named cases whose `from_case(C).to_case(C)` conversion
is considered in the amended idempotence statement: the cases whose pattern
is a whole-word case fold (`lowercase`/`uppercase`) or `toggle`.  These are
the operations that are stable under Rust's full Unicode case mapping; the
`Camel`/`Pascal`/`UpperCamel` family re-splits incorrectly even on ASCII
input, and the capitalising cases (`Title`, `Sentence`, `Ada`, `Train`) and
`Alternating` are not idempotent in the program on inputs with
multi-character case expansions (ß to "SS"). -/
def Case.isFoldOrToggle : Case → Bool
  | .upper | .lower | .toggle | .snake | .constant | .upperSnake
  | .kebab | .cobol | .upperKebab | .flat | .upperFlat => true
  | _ => false

/-- Reference splitter used to characterise `split` on a single
delimiter-consuming boundary: cut at every occurrence of `d`, keeping empty
pieces. -/
def gsplit (d : Char) : List Char → List (List Char)
  | [] => [[]]
  | c :: rest =>
    if c = d then [] :: gsplit d rest
    else
      match gsplit d rest with
      | [] => [[c]]
      | w :: ws => (c :: w) :: ws

/-- Append `w` to the front of the first piece of a piece list. -/
def prependFirst (w : List Char) : List (List Char) → List (List Char)
  | [] => [w]
  | h :: t => (w ++ h) :: t

/-- `w'` is a re-casing of `w`: same length, and each character of `w'` is
the corresponding character of `w`, possibly uppercased or lowercased. -/
def Recasing (w w' : List Char) : Prop :=
  w'.length = w.length ∧
    ∀ j, j < w.length →
      w'.getD j ' ' = w.getD j ' ' ∨ w'.getD j ' ' = (w.getD j ' ').toUpper ∨
        w'.getD j ' ' = (w.getD j ' ').toLower

/-- `ws'` is a word-by-word re-casing of `ws`: same number of words, and the
word at each index is a re-casing of the input word at that index. -/
def RecasesAll (ws ws' : List (List Char)) : Prop :=
  ws'.length = ws.length ∧
    ∀ i, i < ws.length → Recasing (ws.getD i []) (ws'.getD i [])

instance : DecidableEq (Except Unit (List Char)) := fun a b =>
  match a, b with
  | .ok x, .ok y =>
    if h : x = y then .isTrue (by rw [h]) else
      .isFalse (fun hc => h (by injection hc))
  | .ok _, .error _ => .isFalse (fun hc => by injection hc)
  | .error _, .ok _ => .isFalse (fun hc => by injection hc)
  | .error x, .error y => .isTrue (by rfl)

/-! ## Character-level facts about the modelled case mapping -/

theorem toNat_ofNat_lt {n : Nat} (h : n < 55296) : (Char.ofNat n).toNat = n := by
  rw [Char.ofNat, dif_pos (Or.inl (Nat.lt_of_lt_of_le h (by norm_num)))]
  rfl

theorem chr_toNat_inj {a b : Char} (h : a.toNat = b.toNat) : a = b := by
  have h2 := congrArg Char.ofNat h
  rwa [Char.ofNat_toNat, Char.ofNat_toNat] at h2

theorem toNat_toLower (c : Char) :
    c.toLower.toNat = if 65 ≤ c.toNat ∧ c.toNat ≤ 90 then c.toNat + 32 else c.toNat := by
  rw [Char.toLower]
  split
  · rename_i h
    exact toNat_ofNat_lt (by omega)
  · rfl

theorem toNat_toUpper (c : Char) :
    c.toUpper.toNat = if 97 ≤ c.toNat ∧ c.toNat ≤ 122 then c.toNat - 32 else c.toNat := by
  rw [Char.toUpper]
  split
  · rename_i h
    exact toNat_ofNat_lt (by omega)
  · rfl

theorem isUpper_iff (c : Char) : c.isUpper = true ↔ 65 ≤ c.toNat ∧ c.toNat ≤ 90 := by
  rw [Char.isUpper]
  simp only [Bool.and_eq_true, decide_eq_true_eq, ge_iff_le, UInt32.le_def, BitVec.le_def]
  exact Iff.rfl

theorem isLower_iff (c : Char) : c.isLower = true ↔ 97 ≤ c.toNat ∧ c.toNat ≤ 122 := by
  rw [Char.isLower]
  simp only [Bool.and_eq_true, decide_eq_true_eq, ge_iff_le, UInt32.le_def, BitVec.le_def]
  exact Iff.rfl

theorem toLower_toLower (c : Char) : c.toLower.toLower = c.toLower := by
  apply chr_toNat_inj
  rw [toNat_toLower, toNat_toLower]
  split_ifs <;> omega

theorem toUpper_toUpper (c : Char) : c.toUpper.toUpper = c.toUpper := by
  apply chr_toNat_inj
  rw [toNat_toUpper, toNat_toUpper]
  split_ifs <;> omega

theorem toLower_eq_imp {c d : Char} (hd : ¬(97 ≤ d.toNat ∧ d.toNat ≤ 122))
    (h : c.toLower = d) : c = d := by
  apply chr_toNat_inj
  have h2 := congrArg Char.toNat h
  rw [toNat_toLower] at h2
  split_ifs at h2 <;> omega

theorem toUpper_eq_imp {c d : Char} (hd : ¬(65 ≤ d.toNat ∧ d.toNat ≤ 90))
    (h : c.toUpper = d) : c = d := by
  apply chr_toNat_inj
  have h2 := congrArg Char.toNat h
  rw [toNat_toUpper] at h2
  split_ifs at h2 <;> omega

/-! ## The splitter on a single delimiter-consuming boundary -/

theorem joinList_cons_cons (sep w w2 : List Char) (t : List (List Char)) :
    joinList sep (w :: w2 :: t) = w ++ sep ++ joinList sep (w2 :: t) := rfl

theorem gsplit_ne_nil (d : Char) (s : List Char) : gsplit d s ≠ [] := by
  cases s with
  | nil => simp [gsplit]
  | cons c rest =>
    rw [gsplit]
    split_ifs
    · simp
    · cases h : gsplit d rest <;> simp

theorem gsplit_not_mem (d : Char) (s : List Char) :
    ∀ w ∈ gsplit d s, d ∉ w := by
  induction s with
  | nil =>
    intro w hw
    simp [gsplit] at hw
    simp [hw]
  | cons c rest ih =>
    intro w hw
    rw [gsplit] at hw
    split_ifs at hw with hc
    · rcases List.mem_cons.mp hw with h | h
      · simp [h]
      · exact ih w h
    · revert hw
      cases hg : gsplit d rest with
      | nil => exact absurd hg (gsplit_ne_nil d rest)
      | cons w0 ws0 =>
        intro hw
        rcases List.mem_cons.mp hw with h | h
        · subst h
          have hw0 : d ∉ w0 := ih w0 (by rw [hg]; exact List.mem_cons_self _ _)
          simp [List.mem_cons, hc, hw0]
          intro hdc
          exact hc hdc.symm
        · exact ih w (by rw [hg]; exact List.mem_cons_of_mem _ h)

theorem gsplit_of_not_mem {d : Char} {w : List Char} (h : d ∉ w) :
    gsplit d w = [w] := by
  induction w with
  | nil => rfl
  | cons c rest ih =>
    have hc : ¬ c = d := fun hc => h (by simp [hc])
    have hrest : d ∉ rest := fun hr => h (List.mem_cons_of_mem _ hr)
    rw [gsplit, if_neg hc, ih hrest]

theorem gsplit_append {d : Char} {w : List Char} (h : d ∉ w) (r : List Char) :
    gsplit d (w ++ d :: r) = w :: gsplit d r := by
  induction w with
  | nil => simp [gsplit]
  | cons c rest ih =>
    have hc : ¬ c = d := fun hc => h (by simp [hc])
    have hrest : d ∉ rest := fun hr => h (List.mem_cons_of_mem _ hr)
    rw [List.cons_append, gsplit, if_neg hc, ih hrest]

theorem gsplit_join {d : Char} {ws : List (List Char)} (hne : ws ≠ [])
    (hd : ∀ w ∈ ws, d ∉ w) : gsplit d (joinList [d] ws) = ws := by
  induction ws with
  | nil => exact absurd rfl hne
  | cons w rest ih =>
    cases rest with
    | nil =>
      rw [joinList]
      exact gsplit_of_not_mem (hd w (List.mem_cons_self _ _))
    | cons w2 t =>
      have hjoin : joinList [d] (w :: w2 :: t) = w ++ d :: joinList [d] (w2 :: t) := by
        rw [joinList_cons_cons]
        simp
      rw [hjoin, gsplit_append (hd w (List.mem_cons_self _ _)),
        ih (by simp) (fun x hx => hd x (List.mem_cons_of_mem _ hx))]

theorem joinList_ne_nil {w : List Char} (sep : List Char) (hw : w ≠ [])
    (ws : List (List Char)) : joinList sep (w :: ws) ≠ [] := by
  cases ws with
  | nil => exact hw
  | cons w2 t =>
    rw [joinList_cons_cons]
    simp [hw]

theorem sliceCL_self (s : List Char) (a : Nat) : sliceCL s a a = [] := by
  simp [sliceCL]

theorem sliceCL_snoc {s : List Char} {a i : Nat} {c : Char} (ha : a ≤ i)
    (hc : s[i]? = some c) : sliceCL s a (i + 1) = sliceCL s a i ++ [c] := by
  rw [sliceCL, sliceCL, Nat.succ_sub ha, List.take_succ, List.getElem?_drop]
  rw [Nat.add_sub_cancel' ha, hc]
  rfl

theorem splitGo_nil_boundaries (s : List Char) :
    ∀ rem i last acc, splitGo s [] rem i last acc = Except.ok (last, acc) := by
  intro rem
  induction rem with
  | nil => intro i last acc; rfl
  | cons c rest ih =>
    intro i last acc
    rw [splitGo]
    exact ih (i + 1) last acc

theorem split_nil_boundaries {s : List Char} (h : s ≠ []) :
    split s [] = Except.ok [s] := by
  rw [split, if_neg (by simpa using h), splitGo_nil_boundaries]
  show Except.ok (([] ++ [sliceCL s 0 s.length]).filter (fun w => !w.isEmpty)) =
    Except.ok [s]
  have hslice : sliceCL s 0 s.length = s := by
    simp [sliceCL]
  rw [hslice]
  have hne : s.isEmpty = false := by
    cases s with
    | nil => exact absurd rfl h
    | cons a t => rfl
  simp [List.filter, hne]

theorem splitGo_delim {b : Boundary} {d : Char}
    (hb : ∀ rem, b.matches rem = (rem.head? == some d))
    (hst : b.start = 0) (hlen : b.len = 1) (s : List Char) :
    ∀ rem i last acc, s.drop i = rem → last ≤ i → i ≤ s.length →
      ∃ last2 acc2, splitGo s [b] rem i last acc = Except.ok (last2, acc2) ∧
        acc2 ++ [sliceCL s last2 s.length] =
          acc ++ prependFirst (sliceCL s last i) (gsplit d rem) := by
  intro rem
  induction rem with
  | nil =>
    intro i last acc hdrop hlast hi
    have hn : s.length ≤ i := List.drop_eq_nil_iff.mp hdrop
    have hin : i = s.length := Nat.le_antisymm hi hn
    refine ⟨last, acc, rfl, ?_⟩
    subst hin
    simp [gsplit, prependFirst]
  | cons c rest ih =>
    intro i last acc hdrop hlast hi
    have hilt : i < s.length := by
      by_contra hnot
      rw [List.drop_eq_nil_iff.mpr (Nat.le_of_not_lt hnot)] at hdrop
      exact List.noConfusion hdrop
    have hgot : s[i]? = some c := by
      have h0 := List.getElem?_drop s i 0
      rw [hdrop] at h0
      simpa using h0.symm
    have hdropsucc : s.drop (i + 1) = rest := by
      have h1 : (s.drop i).drop 1 = s.drop (i + 1) := by
        rw [List.drop_drop]
      rw [hdrop] at h1
      simpa using h1.symm
    rw [splitGo]
    have hmatch : b.matches (s.drop i) = (c == d) := by
      rw [hb, hdrop]
      rfl
    by_cases hcd : c = d
    · have hfind : List.find? (fun x => x.matches (s.drop i)) [b] = some b := by
        simp [List.find?, hmatch, hcd]
      rw [hfind]
      have hcs : min (i + b.start) s.length = i := by
        rw [hst]
        omega
      have hce : min (i + b.start + b.len) s.length = i + 1 := by
        rw [hst, hlen]
        omega
      simp only [hcs, hce]
      rw [if_pos hlast]
      obtain ⟨last2, acc2, heq, hacc⟩ :=
        ih (i + 1) (i + 1) (acc ++ [sliceCL s last i]) hdropsucc (Nat.le_refl _) hilt
      refine ⟨last2, acc2, heq, ?_⟩
      rw [hacc, sliceCL_self]
      subst hcd
      rw [gsplit, if_pos rfl]
      cases hg : gsplit c rest with
      | nil => exact absurd hg (gsplit_ne_nil c rest)
      | cons w0 ws0 =>
        simp [prependFirst]
    · have hfind : List.find? (fun x => x.matches (s.drop i)) [b] = none := by
        have hf : (c == d) = false := beq_eq_false_iff_ne.mpr hcd
        simp [List.find?, hmatch, hf]
      rw [hfind]
      obtain ⟨last2, acc2, heq, hacc⟩ :=
        ih (i + 1) last acc hdropsucc (Nat.le_succ_of_le hlast) hilt
      refine ⟨last2, acc2, heq, ?_⟩
      rw [hacc, sliceCL_snoc hlast hgot]
      rw [gsplit, if_neg hcd]
      cases hg : gsplit d rest with
      | nil => exact absurd hg (gsplit_ne_nil d rest)
      | cons w0 ws0 =>
        simp [prependFirst]

theorem split_delim {b : Boundary} {d : Char}
    (hb : ∀ rem, b.matches rem = (rem.head? == some d))
    (hst : b.start = 0) (hlen : b.len = 1) (s : List Char) :
    split s [b] = Except.ok ((gsplit d s).filter (fun w => !w.isEmpty)) := by
  by_cases hs : s.length = 0
  · have hnil : s = [] := List.length_eq_zero.mp hs
    subst hnil
    rw [split]
    simp [gsplit, List.filter]
  · rw [split, if_neg hs]
    obtain ⟨last2, acc2, heq, hacc⟩ :=
      splitGo_delim hb hst hlen s s 0 0 [] (by simp) (Nat.le_refl 0) (Nat.zero_le _)
    rw [heq]
    show Except.ok ((acc2 ++ [sliceCL s last2 s.length]).filter (fun w => !w.isEmpty)) =
      Except.ok ((gsplit d s).filter (fun w => !w.isEmpty))
    rw [hacc, sliceCL_self]
    cases hg : gsplit d s with
    | nil => exact absurd hg (gsplit_ne_nil d s)
    | cons w0 ws0 =>
      simp [prependFirst]

/-! ## Patterns: length preservation, re-casing and idempotence -/

theorem getD_map (f : List Char → List Char) (ws : List (List Char)) (i : Nat)
    (h : i < ws.length) : (ws.map f).getD i [] = f (ws.getD i []) := by
  rw [List.getD_eq_getElem?_getD, List.getD_eq_getElem?_getD, List.getElem?_map,
    List.getElem?_eq_getElem h]
  rfl

theorem getD_map_chr (f : Char → Char) (w : List Char) (j : Nat)
    (h : j < w.length) : (w.map f).getD j ' ' = f (w.getD j ' ') := by
  rw [List.getD_eq_getElem?_getD, List.getD_eq_getElem?_getD, List.getElem?_map,
    List.getElem?_eq_getElem h]
  rfl

theorem getD_mem {α : Type} (l : List α) (j : Nat) (d : α) (h : j < l.length) :
    l.getD j d ∈ l := by
  rw [List.getD_eq_getElem?_getD, List.getElem?_eq_getElem h]
  exact List.getElem_mem _

theorem recasing_refl (w : List Char) : Recasing w w :=
  ⟨rfl, fun _ _ => Or.inl rfl⟩

theorem recasing_lowercase (w : List Char) : Recasing w (wordLowercase w) := by
  refine ⟨List.length_map _ _, fun j hj => ?_⟩
  rw [wordLowercase, getD_map_chr _ _ _ hj]
  exact Or.inr (Or.inr rfl)

theorem recasing_uppercase (w : List Char) : Recasing w (wordUppercase w) := by
  refine ⟨List.length_map _ _, fun j hj => ?_⟩
  rw [wordUppercase, getD_map_chr _ _ _ hj]
  exact Or.inr (Or.inl rfl)

theorem recasing_capital (w : List Char) : Recasing w (wordCapital w) := by
  cases w with
  | nil => exact ⟨rfl, fun j hj => absurd hj (by simp)⟩
  | cons c rest =>
    refine ⟨by simp [wordCapital], fun j hj => ?_⟩
    cases j with
    | zero => exact Or.inr (Or.inl rfl)
    | succ j =>
      have hj2 : j < rest.length := by simpa using hj
      refine Or.inr (Or.inr ?_)
      show (rest.map Char.toLower).getD j ' ' = (rest.getD j ' ').toLower
      exact getD_map_chr _ _ _ hj2

theorem recasing_toggle (w : List Char) : Recasing w (wordToggle w) := by
  cases w with
  | nil => exact ⟨rfl, fun j hj => absurd hj (by simp)⟩
  | cons c rest =>
    refine ⟨by simp [wordToggle], fun j hj => ?_⟩
    cases j with
    | zero => exact Or.inr (Or.inr rfl)
    | succ j =>
      have hj2 : j < rest.length := by simpa using hj
      refine Or.inr (Or.inl ?_)
      show (rest.map Char.toUpper).getD j ' ' = (rest.getD j ' ').toUpper
      exact getD_map_chr _ _ _ hj2

theorem altChar_snd (u : Bool) (c : Char) :
    (altChar u c).2 = c ∨ (altChar u c).2 = c.toUpper ∨ (altChar u c).2 = c.toLower := by
  rw [altChar]
  split_ifs <;> simp

theorem altWord_recasing (w : List Char) : ∀ u, Recasing w (altWord u w).2 := by
  induction w with
  | nil => exact fun u => ⟨rfl, fun j hj => absurd hj (by simp)⟩
  | cons c rest ih =>
    intro u
    refine ⟨by simpa [altWord] using ((ih (altChar u c).1).1), fun j hj => ?_⟩
    cases j with
    | zero => exact altChar_snd u c
    | succ j =>
      have hj2 : j < rest.length := by simpa using hj
      exact (ih (altChar u c).1).2 j hj2

theorem recasesAll_map (f : List Char → List Char)
    (hf : ∀ w, Recasing w (f w)) (ws : List (List Char)) :
    RecasesAll ws (ws.map f) := by
  refine ⟨List.length_map _ _, fun i hi => ?_⟩
  rw [getD_map _ _ _ hi]
  exact hf _

theorem recasesAll_altWords (ws : List (List Char)) :
    ∀ u, RecasesAll ws (altWords u ws) := by
  induction ws with
  | nil => exact fun u => ⟨rfl, fun i hi => absurd hi (by simp)⟩
  | cons w rest ih =>
    intro u
    refine ⟨by simpa [altWords] using (ih (altWord u w).1).1, fun i hi => ?_⟩
    cases i with
    | zero => exact altWord_recasing w u
    | succ i =>
      have hi2 : i < rest.length := by simpa using hi
      exact (ih (altWord u w).1).2 i hi2

theorem mutate_recases (p : Pattern)
    (hp : p ∈ [Pattern.noop, .lowercase, .uppercase, .capital, .camel,
      .sentence, .toggle, .alternating]) (ws : List (List Char)) :
    RecasesAll ws (p.mutate ws) := by
  simp only [List.mem_cons, List.not_mem_nil, or_false] at hp
  rcases hp with h | h | h | h | h | h | h | h <;> subst h
  · exact ⟨rfl, fun i _ => recasing_refl _⟩
  · exact recasesAll_map _ recasing_lowercase ws
  · exact recasesAll_map _ recasing_uppercase ws
  · exact recasesAll_map _ recasing_capital ws
  · cases ws with
    | nil => exact ⟨rfl, fun i hi => absurd hi (by simp)⟩
    | cons w rest =>
      refine ⟨by simp [Pattern.mutate], fun i hi => ?_⟩
      cases i with
      | zero => exact recasing_lowercase w
      | succ i =>
        have hi2 : i < rest.length := by simpa using hi
        show Recasing (rest.getD i []) ((rest.map wordCapital).getD i [])
        rw [getD_map _ _ _ hi2]
        exact recasing_capital _
  · cases ws with
    | nil => exact ⟨rfl, fun i hi => absurd hi (by simp)⟩
    | cons w rest =>
      refine ⟨by simp [Pattern.mutate], fun i hi => ?_⟩
      cases i with
      | zero => exact recasing_capital w
      | succ i =>
        have hi2 : i < rest.length := by simpa using hi
        show Recasing (rest.getD i []) ((rest.map wordLowercase).getD i [])
        rw [getD_map _ _ _ hi2]
        exact recasing_lowercase _
  · exact recasesAll_map _ recasing_toggle ws
  · exact recasesAll_altWords ws false

theorem recasesAll_nonempty {ws ws' : List (List Char)} (h : RecasesAll ws ws')
    (hne : ∀ w ∈ ws, w ≠ []) : ∀ w' ∈ ws', w' ≠ [] := by
  intro w' hw'
  obtain ⟨i, hi⟩ := List.mem_iff_getElem?.mp hw'
  have hilt : i < ws'.length := by
    by_contra hnot
    rw [List.getElem?_eq_none (Nat.le_of_not_lt hnot)] at hi
    exact Option.noConfusion hi
  have hilt2 : i < ws.length := by rw [← h.1]; exact hilt
  have hgd : ws'.getD i [] = w' := by
    rw [List.getD_eq_getElem?_getD, hi]
    rfl
  have hr := (h.2 i hilt2).1
  rw [hgd] at hr
  have hmem : ws.getD i [] ∈ ws := getD_mem ws i [] hilt2
  have hlen : ws.getD i [] ≠ [] := hne _ hmem
  intro hcon
  rw [hcon] at hr
  exact hlen (List.eq_nil_of_length_eq_zero hr.symm)

theorem recasesAll_not_mem {d : Char} {ws ws' : List (List Char)}
    (hdl : ¬(97 ≤ d.toNat ∧ d.toNat ≤ 122)) (hdu : ¬(65 ≤ d.toNat ∧ d.toNat ≤ 90))
    (h : RecasesAll ws ws') (hfree : ∀ w ∈ ws, d ∉ w) : ∀ w' ∈ ws', d ∉ w' := by
  intro w' hw' hdmem
  obtain ⟨i, hi⟩ := List.mem_iff_getElem?.mp hw'
  have hilt : i < ws'.length := by
    by_contra hnot
    rw [List.getElem?_eq_none (Nat.le_of_not_lt hnot)] at hi
    exact Option.noConfusion hi
  have hilt2 : i < ws.length := by rw [← h.1]; exact hilt
  have hgd : ws'.getD i [] = w' := by
    rw [List.getD_eq_getElem?_getD, hi]
    rfl
  have hmem : ws.getD i [] ∈ ws := getD_mem ws i [] hilt2
  obtain ⟨hrl, hrc⟩ := h.2 i hilt2
  rw [hgd] at hrl hrc
  obtain ⟨j, hj⟩ := List.mem_iff_getElem?.mp hdmem
  have hjlt : j < w'.length := by
    by_contra hnot
    rw [List.getElem?_eq_none (Nat.le_of_not_lt hnot)] at hj
    exact Option.noConfusion hj
  have hjlt2 : j < (ws.getD i []).length := by rw [← hrl]; exact hjlt
  have hgdj : w'.getD j ' ' = d := by
    rw [List.getD_eq_getElem?_getD, hj]
    rfl
  have hcmem : (ws.getD i []).getD j ' ' ∈ ws.getD i [] :=
    getD_mem _ j ' ' hjlt2
  have hnotd : (ws.getD i []).getD j ' ' ≠ d := by
    intro hc
    exact hfree _ hmem (hc ▸ hcmem)
  rcases hrc j hjlt2 with hv | hv | hv
  · exact hnotd (by rw [← hv, hgdj])
  · rw [hgdj] at hv
    exact hnotd (toUpper_eq_imp hdu hv.symm)
  · rw [hgdj] at hv
    exact hnotd (toLower_eq_imp hdl hv.symm)

theorem wordLowercase_idem (w : List Char) :
    wordLowercase (wordLowercase w) = wordLowercase w := by
  rw [wordLowercase, wordLowercase, List.map_map]
  exact List.map_congr_left (fun c _ => toLower_toLower c)

theorem wordUppercase_idem (w : List Char) :
    wordUppercase (wordUppercase w) = wordUppercase w := by
  rw [wordUppercase, wordUppercase, List.map_map]
  exact List.map_congr_left (fun c _ => toUpper_toUpper c)

theorem wordToggle_idem (w : List Char) :
    wordToggle (wordToggle w) = wordToggle w := by
  cases w with
  | nil => rfl
  | cons c rest =>
    rw [wordToggle, wordToggle, toLower_toLower, List.map_map]
    have : rest.map (Char.toUpper ∘ Char.toUpper) = rest.map Char.toUpper :=
      List.map_congr_left (fun x _ => toUpper_toUpper x)
    rw [this]

theorem map_idem (f : List Char → List Char) (hf : ∀ w, f (f w) = f w)
    (ws : List (List Char)) : (ws.map f).map f = ws.map f := by
  rw [List.map_map]
  exact List.map_congr_left (fun w _ => hf w)

theorem mutate_idem_lowercase (ws : List (List Char)) :
    Pattern.mutate .lowercase (Pattern.mutate .lowercase ws) =
      Pattern.mutate .lowercase ws :=
  map_idem wordLowercase wordLowercase_idem ws

theorem mutate_idem_uppercase (ws : List (List Char)) :
    Pattern.mutate .uppercase (Pattern.mutate .uppercase ws) =
      Pattern.mutate .uppercase ws :=
  map_idem wordUppercase wordUppercase_idem ws

theorem mutate_idem_toggle (ws : List (List Char)) :
    Pattern.mutate .toggle (Pattern.mutate .toggle ws) =
      Pattern.mutate .toggle ws :=
  map_idem wordToggle wordToggle_idem ws

/-! ## Idempotence of a single-case conversion pipeline -/

theorem convert_one_pattern {bs : List Boundary} {q : Pattern} {dl : List Char}
    {s : List Char} {ws : List (List Char)} (h : split s bs = Except.ok ws) :
    Converter.convert ⟨bs, [q], dl⟩ s = Except.ok (joinList dl (q.mutate ws)) := by
  simp only [Converter.convert]
  rw [h]
  rfl

theorem delim_idem (b : Boundary) (d : Char) (q : Pattern)
    (hb : ∀ rem, b.matches rem = (rem.head? == some d))
    (hst : b.start = 0) (hlen : b.len = 1)
    (hdl : ¬(97 ≤ d.toNat ∧ d.toNat ≤ 122)) (hdu : ¬(65 ≤ d.toNat ∧ d.toNat ≤ 90))
    (hrec : ∀ ws, RecasesAll ws (q.mutate ws))
    (hidem : ∀ ws, q.mutate (q.mutate ws) = q.mutate ws)
    (s : List Char) :
    (Converter.convert ⟨[b], [q], [d]⟩ s).bind (Converter.convert ⟨[b], [q], [d]⟩) =
      Converter.convert ⟨[b], [q], [d]⟩ s := by
  have hmut_nil : q.mutate [] = [] := by
    have hl := (hrec []).1
    exact List.eq_nil_of_length_eq_zero (by simpa using hl)
  have hconv : ∀ t, Converter.convert ⟨[b], [q], [d]⟩ t =
      Except.ok (joinList [d] (q.mutate ((gsplit d t).filter (fun w => !w.isEmpty)))) :=
    fun t => convert_one_pattern (split_delim hb hst hlen t)
  rw [hconv s]
  show Converter.convert ⟨[b], [q], [d]⟩
      (joinList [d] (q.mutate ((gsplit d s).filter (fun w => !w.isEmpty)))) = _
  rw [hconv]
  set ws0 := (gsplit d s).filter (fun w => !w.isEmpty) with hws0
  by_cases hcase : ws0 = []
  · rw [hcase, hmut_nil]
    show Except.ok (joinList [d] (q.mutate
      ((gsplit d (joinList [d] [])).filter (fun w => !w.isEmpty)))) = _
    have hg0 : (gsplit d (joinList [d] [])).filter (fun w => !w.isEmpty) = [] := rfl
    rw [hg0, hmut_nil]
  · have hne : ∀ w ∈ ws0, w ≠ [] := by
      intro w hw
      have hf := List.of_mem_filter hw
      intro hcon
      rw [hcon] at hf
      simp at hf
    have hfree : ∀ w ∈ ws0, d ∉ w := fun w hw =>
      gsplit_not_mem d s w (List.mem_of_mem_filter hw)
    have hr := hrec ws0
    have hne1 : ∀ w ∈ q.mutate ws0, w ≠ [] := recasesAll_nonempty hr hne
    have hfree1 : ∀ w ∈ q.mutate ws0, d ∉ w := recasesAll_not_mem hdl hdu hr hfree
    have hws1ne : q.mutate ws0 ≠ [] := by
      intro hcon
      have hl := hr.1
      rw [hcon] at hl
      exact hcase (List.eq_nil_of_length_eq_zero hl.symm)
    have hg : gsplit d (joinList [d] (q.mutate ws0)) = q.mutate ws0 :=
      gsplit_join hws1ne hfree1
    have hfil : (q.mutate ws0).filter (fun w => !w.isEmpty) = q.mutate ws0 :=
      List.filter_eq_self.mpr (fun w hw => by
        have hnn := hne1 w hw
        cases w with
        | nil => exact absurd rfl hnn
        | cons a t => rfl)
    rw [hg, hfil, hidem]

theorem flat_idem (q : Pattern)
    (hrec : ∀ ws, RecasesAll ws (q.mutate ws))
    (hidem : ∀ ws, q.mutate (q.mutate ws) = q.mutate ws)
    (s : List Char) :
    (Converter.convert ⟨[], [q], []⟩ s).bind (Converter.convert ⟨[], [q], []⟩) =
      Converter.convert ⟨[], [q], []⟩ s := by
  have hmut_nil : q.mutate [] = [] := by
    have hl := (hrec []).1
    exact List.eq_nil_of_length_eq_zero (by simpa using hl)
  by_cases hs : s = []
  · subst hs
    have h0 : Converter.convert ⟨[], [q], []⟩ [] = Except.ok [] := by
      have hsp : split ([] : List Char) [] = Except.ok [] := rfl
      rw [convert_one_pattern hsp, hmut_nil]
      rfl
    rw [h0]
    show Converter.convert ⟨[], [q], []⟩ [] = Except.ok []
    exact h0
  · have hsp := split_nil_boundaries hs
    rw [convert_one_pattern hsp]
    have hr := hrec [s]
    have hlen1 : (q.mutate [s]).length = 1 := by rw [hr.1]; rfl
    obtain ⟨w1, hw1⟩ := List.length_eq_one.mp hlen1
    have hne1 : w1 ≠ [] := by
      have hforall := recasesAll_nonempty hr (fun w hw => by
        rw [List.mem_singleton.mp hw]
        exact hs)
      exact hforall w1 (by rw [hw1]; exact List.mem_singleton.mpr rfl)
    rw [hw1]
    have hjw : joinList [] [w1] = w1 := rfl
    rw [hjw]
    show Converter.convert ⟨[], [q], []⟩ w1 = Except.ok w1
    rw [convert_one_pattern (split_nil_boundaries hne1)]
    have hq1 : q.mutate [w1] = [w1] := by
      rw [← hw1, hidem, hw1]
    rw [hq1]
    rfl

/-! ## Flattened split output is a subsequence of the input -/

theorem take_subl {a b : Nat} (l : List Char) (h : a ≤ b) :
    (l.take a).Sublist (l.take b) := by
  have h1 : l.take a = (l.take b).take a := by
    rw [List.take_take, Nat.min_eq_left h]
  rw [h1]
  exact List.take_sublist a (l.take b)

theorem take_append_slice {s : List Char} {a b : Nat} (h : a ≤ b) :
    s.take a ++ sliceCL s a b = s.take b := by
  rw [sliceCL]
  have hb : b = a + (b - a) := by omega
  conv_rhs => rw [hb, List.take_add]

theorem sliceCL_to_end (s : List Char) (a : Nat) : sliceCL s a s.length = s.drop a := by
  rw [sliceCL]
  have hl : s.length - a = (s.drop a).length := (List.length_drop a s).symm
  rw [hl, List.take_length]

theorem flatten_filter_ne (ws : List (List Char)) :
    (ws.filter (fun w => !w.isEmpty)).flatten = ws.flatten := by
  induction ws with
  | nil => rfl
  | cons w rest ih =>
    cases w with
    | nil => simpa using ih
    | cons c t => simp [List.filter, ih]

theorem splitGo_sublist (s : List Char) (bs : List Boundary) :
    ∀ rem i last acc last2 acc2,
      splitGo s bs rem i last acc = Except.ok (last2, acc2) →
      acc.flatten.Sublist (s.take last) →
      acc2.flatten.Sublist (s.take last2) := by
  intro rem
  induction rem with
  | nil =>
    intro i last acc last2 acc2 h hacc
    simp only [splitGo, Except.ok.injEq, Prod.mk.injEq] at h
    obtain ⟨h1, h2⟩ := h
    subst h1
    subst h2
    exact hacc
  | cons c rest ih =>
    intro i last acc last2 acc2 h hacc
    rw [splitGo] at h
    cases hfind : List.find? (fun b => b.matches (s.drop i)) bs with
    | none =>
      rw [hfind] at h
      exact ih _ _ _ _ _ h hacc
    | some b =>
      rw [hfind] at h
      dsimp only at h
      by_cases hle : last ≤ min (i + b.start) s.length
      · rw [if_pos hle] at h
        refine ih _ _ _ _ _ h ?_
        rw [List.flatten_append]
        have h1 : (acc.flatten ++ (sliceCL s last (min (i + b.start) s.length)))
            |>.Sublist (s.take (min (i + b.start) s.length)) := by
          rw [← take_append_slice hle]
          exact hacc.append (List.Sublist.refl _)
        have h2 : (s.take (min (i + b.start) s.length)).Sublist
            (s.take (min (i + b.start + b.len) s.length)) :=
          take_subl s (by omega)
        have h3 : ([sliceCL s last (min (i + b.start) s.length)] : List (List Char)).flatten =
            sliceCL s last (min (i + b.start) s.length) := by simp
        rw [h3]
        exact h1.trans h2
      · rw [if_neg hle] at h
        exact absurd h (by simp)

theorem split_flatten_sublist {s : List Char} {bs : List Boundary}
    {ws : List (List Char)} (h : split s bs = Except.ok ws) :
    ws.flatten.Sublist s := by
  rw [split] at h
  split_ifs at h with hs
  · cases h
    exact List.nil_sublist s
  · revert h
    cases hgo : splitGo s bs s 0 0 [] with
    | error e => intro h; cases h
    | ok p =>
      cases p with
      | mk last2 acc2 =>
        intro h
        cases h
        have hres := splitGo_sublist s bs s 0 0 [] last2 acc2 hgo (by simp)
        rw [flatten_filter_ne, List.flatten_append]
        have h2 : sliceCL s last2 s.length = s.drop last2 := sliceCL_to_end s last2
        have h3 : ([sliceCL s last2 s.length] : List (List Char)).flatten =
            sliceCL s last2 s.length := by simp
        rw [h3, h2]
        have hstep : (acc2.flatten ++ s.drop last2).Sublist
            (s.take last2 ++ s.drop last2) := hres.append (List.Sublist.refl _)
        rw [List.take_append_drop last2 s] at hstep
        exact hstep

theorem joinList_nil (ws : List (List Char)) : joinList [] ws = ws.flatten := by
  induction ws with
  | nil => rfl
  | cons w rest ih =>
    cases rest with
    | nil => simp [joinList]
    | cons w2 t =>
      rw [joinList_cons_cons, ih]
      simp

/-! ## Claim theorems: concrete evaluations and tables -/

/-- C3: the named case table holds exactly: the space-delimited cases map to
delimiter `" "` and boundary set `[Space]`; the underscore cases to `"_"` and
`[Underscore]`; the hyphen cases to `"-"` and `[Hyphen]`; the camel family to
the empty delimiter and the six letter/digit/acronym transition boundaries;
the flat cases to the empty delimiter and no boundaries; and each alias
(`UpperCamel`/`Pascal`, `UpperSnake`/`Constant`, `UpperKebab`/`Cobol`) has
identical boundaries, pattern and delimiter to its counterpart. -/
theorem named_case_table :
    Case.delim .upper = [' '] ∧ Case.boundaries .upper = [.space] ∧
    Case.delim .lower = [' '] ∧ Case.boundaries .lower = [.space] ∧
    Case.delim .title = [' '] ∧ Case.boundaries .title = [.space] ∧
    Case.delim .sentence = [' '] ∧ Case.boundaries .sentence = [.space] ∧
    Case.delim .toggle = [' '] ∧ Case.boundaries .toggle = [.space] ∧
    Case.delim .alternating = [' '] ∧ Case.boundaries .alternating = [.space] ∧
    Case.delim .snake = ['_'] ∧ Case.boundaries .snake = [.underscore] ∧
    Case.delim .constant = ['_'] ∧ Case.boundaries .constant = [.underscore] ∧
    Case.delim .ada = ['_'] ∧ Case.boundaries .ada = [.underscore] ∧
    Case.delim .kebab = ['-'] ∧ Case.boundaries .kebab = [.hyphen] ∧
    Case.delim .cobol = ['-'] ∧ Case.boundaries .cobol = [.hyphen] ∧
    Case.delim .train = ['-'] ∧ Case.boundaries .train = [.hyphen] ∧
    Case.delim .camel = [] ∧
    Case.boundaries .camel =
      [.lowerUpper, .acronym, .lowerDigit, .upperDigit, .digitLower, .digitUpper] ∧
    Case.delim .pascal = [] ∧
    Case.boundaries .pascal =
      [.lowerUpper, .acronym, .lowerDigit, .upperDigit, .digitLower, .digitUpper] ∧
    Case.delim .upperCamel = [] ∧
    Case.boundaries .upperCamel =
      [.lowerUpper, .acronym, .lowerDigit, .upperDigit, .digitLower, .digitUpper] ∧
    Case.delim .flat = [] ∧ Case.boundaries .flat = [] ∧
    Case.delim .upperFlat = [] ∧ Case.boundaries .upperFlat = [] ∧
    Case.boundaries .upperCamel = Case.boundaries .pascal ∧
    Case.pattern .upperCamel = Case.pattern .pascal ∧
    Case.delim .upperCamel = Case.delim .pascal ∧
    Case.boundaries .upperSnake = Case.boundaries .constant ∧
    Case.pattern .upperSnake = Case.pattern .constant ∧
    Case.delim .upperSnake = Case.delim .constant ∧
    Case.boundaries .upperKebab = Case.boundaries .cobol ∧
    Case.pattern .upperKebab = Case.pattern .cobol ∧
    Case.delim .upperKebab = Case.delim .cobol := by
  and_intros <;> rfl

/-- C4: the default boundary set (used by `Casing::to_case` and by
`Converter::new()`) consists exactly of `Space`, `Hyphen`, `Underscore`,
`LowerUpper`, `Acronym` and the four digit-transition boundaries — in
particular `UpperLower` is not among them, since it is not in the
enumeration — and `Converter::new()` carries these boundaries with no
patterns and an empty delimiter. -/
theorem default_boundary_set :
    (∀ b : Boundary,
      b ∈ Boundary.defaults ↔
        b = .space ∨ b = .hyphen ∨ b = .underscore ∨ b = .lowerUpper ∨
          b = .acronym ∨ b = .lowerDigit ∨ b = .upperDigit ∨ b = .digitLower ∨
          b = .digitUpper) ∧
    Boundary.defaults.length = 9 ∧
    Converter.new.boundaries = Boundary.defaults ∧
    Converter.new.patterns = [] ∧
    Converter.new.delimiter = [] := by
  refine ⟨fun b => ?_, rfl, rfl, rfl, rfl⟩
  cases b <;> simp [Boundary.defaults]

/-- C5: converting `"XMLHttpRequest"` with `from_case(Camel).to_case(Snake)`
yields exactly `"xml_http_request"`; the acronym boundary inspects two
uppercase graphemes followed by a lowercase one, cuts at offset `1` and
consumes `0` graphemes. -/
theorem acronym_xml_http_request :
    Boundary.start .acronym = 1 ∧ Boundary.len .acronym = 0 ∧
    fromCaseToCase .camel .snake ("XMLHttpRequest".toList) =
      .ok ("xml_http_request".toList) := by
  refine ⟨rfl, rfl, ?_⟩
  rfl

/-- C2: the claim fails on the code: `split` ends with
`.filter(|s| !s.is_empty())` (`src/boundary.rs` line 662), so leading,
trailing and duplicate delimiters never produce empty words.  On the crate's
own doctest input `"_leading_score"` the default-boundary split returns only
`["leading", "score"]`, the constant-case conversion returns
`"LEADING_SCORE"` (the doctest expects `"_LEADING_SCORE"`), and in general
every word returned by `split` is nonempty. -/
theorem split_never_returns_empty_words :
    split ("_leading_score".toList) Boundary.defaults =
      .ok ["leading".toList, "score".toList] ∧
    casingToCase .constant ("_leading_score".toList) =
      .ok ("LEADING_SCORE".toList) ∧
    ∀ s bs ws, split s bs = Except.ok ws →
      ws.all (fun w => !w.isEmpty) = true := by
  refine ⟨rfl, rfl, fun s bs ws h => ?_⟩
  rw [split] at h
  split_ifs at h with hs
  · cases h
    rfl
  · revert h
    cases splitGo s bs s 0 0 [] with
    | error e => intro h; cases h
    | ok p =>
      intro h
      cases h
      simp [List.all_eq_true]

/-- C2 witness: the general part applied at the failing input `"-a"` with
the `Hyphen` boundary. -/
theorem split_never_returns_empty_words_w :
    split ("-a".toList) [.hyphen] = Except.ok ["a".toList] ∧
    (["a".toList] : List (List Char)).all (fun w => !w.isEmpty) = true :=
  ⟨rfl, split_never_returns_empty_words.2.2 ("-a".toList) [.hyphen] _ rfl⟩

/-- C6: the claim fails on the code: `Boundary::from_delim` sets `len` to
`delim.len()`, the BYTE length of the delimiter, while `split` consumes
`len` GRAPHEMES.  For the one-grapheme, two-byte delimiter `"·"` the
boundary consumes two graphemes, so splitting `"a·bc"` swallows the `b`
and returns `["a", "c"]` instead of `["a", "bc"]`. -/
theorem from_delim_len_is_bytes :
    ("·".toList).length = 1 ∧
    Boundary.len (Boundary.from_delim ("·".toList)) = 2 ∧
    split ("a·bc".toList) [Boundary.from_delim ("·".toList)] =
      .ok ["a".toList, "c".toList] := by
  refine ⟨rfl, rfl, ?_⟩
  rfl

/-- C8: the claim fails on the code: for a custom boundary whose
`start + len` exceeds the remaining input, `split` clamps the cut indices
but can still panic.  With the always-matching boundary
`(start 0, len 5)` on `"ab"`, the first match consumes to the clamped end
of input (`last_boundary_end = 2`), the second match at position `1`
computes the word slice `&s[2..1]`, and the Rust slice operation panics
(modelled as `Except.error`). -/
theorem split_panics_on_overlapping_custom :
    Boundary.start (.custom (fun _ => true) 0 5) +
      Boundary.len (.custom (fun _ => true) 0 5) = 5 ∧
    ("ab".toList).length = 2 ∧
    split ("ab".toList) [.custom (fun _ => true) 0 5] = Except.error () := by
  refine ⟨rfl, rfl, ?_⟩
  rfl

/-- C7: `remove_empty` appends the `RemoveEmpty` pattern, which filters out
all zero-length words and runs before the pattern contributed by the
subsequent `to_case`; converting `"--leading-delims"` with
`from_case(Kebab).remove_empty().to_case(Camel)` yields `"leadingDelims"`. -/
theorem remove_empty_filters_empty_words :
    (∀ ws, Pattern.mutate .removeEmpty ws = ws.filter (fun w => !w.isEmpty)) ∧
    ((Converter.new.from_case .kebab).remove_empty).to_case .camel =
      { boundaries := Case.boundaries .kebab,
        patterns := [.removeEmpty, Case.pattern .camel],
        delimiter := [] } ∧
    (((Converter.new.from_case .kebab).remove_empty).to_case .camel).convert
        ("--leading-delims".toList) =
      .ok ("leadingDelims".toList) := by
  refine ⟨fun ws => rfl, rfl, ?_⟩
  rfl

/-- C1 counterexample: `from_case(Pascal).to_case(Pascal)` is not idempotent:
on `"xA.c"` it yields `"XA.c"`, and applied again it yields `"Xa.c"`. -/
theorem idempotence_cex :
    fromCaseToCase .pascal .pascal ("xA.c".toList) = .ok ("XA.c".toList) ∧
    fromCaseToCase .pascal .pascal ("XA.c".toList) = .ok ("Xa.c".toList) ∧
    (("XA.c".toList : List Char) == ("Xa.c".toList : List Char)) = false := by
  refine ⟨rfl, rfl, ?_⟩
  rfl

/-- C1 (amended): for every deterministic named case whose pattern is a
whole-word case fold or toggle — `Upper`, `Lower`, `Toggle`, `Snake`,
`Constant`, `UpperSnake`, `Kebab`, `Cobol`, `UpperKebab`, `Flat`,
`UpperFlat` — and every input string, `from_case(C).to_case(C)` is
idempotent: applying the conversion to its own output returns that output.
The `Camel`/`Pascal`/`UpperCamel` family is refuted by `idempotence_cex`;
the capitalising cases (`Title`, `Sentence`, `Ada`, `Train`) and
`Alternating` are excluded because `str::to_uppercase` can expand one
grapheme to several (ß to "SS"), which makes them non-idempotent in the
program (Title on "ßa" gives "SSa", then "Ssa") and lies outside the
single-character case map of this embedding. -/
theorem idempotence_amended (C : Case) (hC : C.isFoldOrToggle = true)
    (s : List Char) :
    (fromCaseToCase C C s).bind (fromCaseToCase C C) = fromCaseToCase C C s := by
  cases C with
  | camel => exact absurd hC (by simp [Case.isFoldOrToggle])
  | pascal => exact absurd hC (by simp [Case.isFoldOrToggle])
  | upperCamel => exact absurd hC (by simp [Case.isFoldOrToggle])
  | custom bs p dl => exact absurd hC (by simp [Case.isFoldOrToggle])
  | title => exact absurd hC (by simp [Case.isFoldOrToggle])
  | sentence => exact absurd hC (by simp [Case.isFoldOrToggle])
  | ada => exact absurd hC (by simp [Case.isFoldOrToggle])
  | train => exact absurd hC (by simp [Case.isFoldOrToggle])
  | alternating => exact absurd hC (by simp [Case.isFoldOrToggle])
  | upper =>
    exact delim_idem .space ' ' .uppercase (fun rem => rfl) rfl rfl (by decide)
      (by decide) (mutate_recases .uppercase (by simp)) mutate_idem_uppercase s
  | lower =>
    exact delim_idem .space ' ' .lowercase (fun rem => rfl) rfl rfl (by decide)
      (by decide) (mutate_recases .lowercase (by simp)) mutate_idem_lowercase s
  | toggle =>
    exact delim_idem .space ' ' .toggle (fun rem => rfl) rfl rfl (by decide)
      (by decide) (mutate_recases .toggle (by simp)) mutate_idem_toggle s
  | snake =>
    exact delim_idem .underscore '_' .lowercase (fun rem => rfl) rfl rfl (by decide)
      (by decide) (mutate_recases .lowercase (by simp)) mutate_idem_lowercase s
  | constant =>
    exact delim_idem .underscore '_' .uppercase (fun rem => rfl) rfl rfl (by decide)
      (by decide) (mutate_recases .uppercase (by simp)) mutate_idem_uppercase s
  | upperSnake =>
    exact delim_idem .underscore '_' .uppercase (fun rem => rfl) rfl rfl (by decide)
      (by decide) (mutate_recases .uppercase (by simp)) mutate_idem_uppercase s
  | kebab =>
    exact delim_idem .hyphen '-' .lowercase (fun rem => rfl) rfl rfl (by decide)
      (by decide) (mutate_recases .lowercase (by simp)) mutate_idem_lowercase s
  | cobol =>
    exact delim_idem .hyphen '-' .uppercase (fun rem => rfl) rfl rfl (by decide)
      (by decide) (mutate_recases .uppercase (by simp)) mutate_idem_uppercase s
  | upperKebab =>
    exact delim_idem .hyphen '-' .uppercase (fun rem => rfl) rfl rfl (by decide)
      (by decide) (mutate_recases .uppercase (by simp)) mutate_idem_uppercase s
  | flat =>
    exact flat_idem .lowercase (mutate_recases .lowercase (by simp))
      mutate_idem_lowercase s
  | upperFlat =>
    exact flat_idem .uppercase (mutate_recases .uppercase (by simp))
      mutate_idem_uppercase s


/-- C1 witness: the amended idempotence applied at `Snake` on
`"my_varName--x"`. -/
theorem idempotence_amended_w :
    Case.isFoldOrToggle .snake = true ∧
    (fromCaseToCase .snake .snake ("my_varName--x".toList)).bind
        (fromCaseToCase .snake .snake) =
      fromCaseToCase .snake .snake ("my_varName--x".toList) :=
  ⟨rfl, idempotence_amended .snake rfl ("my_varName--x".toList)⟩

/-- C9: every built-in pattern other than remove-empty preserves the length
and order of the word sequence: `mutate` with `Noop`, `Lowercase`,
`Uppercase`, `Capital`, `Camel`, `Sentence`, `Toggle` or `Alternating`
returns exactly as many words as it was given, and the word at each index is
a re-casing of the input word at that same index. -/
theorem patterns_preserve_length_order (p : Pattern)
    (hp : p ∈ [Pattern.noop, .lowercase, .uppercase, .capital, .camel,
      .sentence, .toggle, .alternating]) (ws : List (List Char)) :
    (p.mutate ws).length = ws.length ∧
      ∀ i, i < ws.length → Recasing (ws.getD i []) ((p.mutate ws).getD i []) :=
  mutate_recases p hp ws

/-- C9 witness: the length/order preservation applied to the `Capital`
pattern on a concrete two-word sequence. -/
theorem patterns_preserve_length_order_w :
    Pattern.capital ∈ [Pattern.noop, .lowercase, .uppercase, .capital, .camel,
      .sentence, .toggle, .alternating] ∧
    ((Pattern.capital.mutate [("ab".toList), ("CD".toList)]).length =
        [("ab".toList), ("CD".toList)].length ∧
      ∀ i, i < [("ab".toList), ("CD".toList)].length →
        Recasing ([("ab".toList), ("CD".toList)].getD i [])
          ((Pattern.capital.mutate [("ab".toList), ("CD".toList)]).getD i [])) :=
  ⟨by simp, patterns_preserve_length_order .capital (by simp)
    [("ab".toList), ("CD".toList)]⟩

/-- C10: a `Converter` whose pattern list is empty (in particular
`Converter::new()`) converts by splitting on its boundaries, keeping every
word unchanged, and joining with its delimiter; with the empty delimiter the
output is a subsequence of the input, so the default converter only removes
delimiter characters and never changes a letter. -/
theorem convert_empty_patterns (conv : Converter) (s : List Char)
    (h : conv.patterns = []) :
    conv.convert s = (split s conv.boundaries).map (joinList conv.delimiter) ∧
    ∀ t, conv.delimiter = [] → conv.convert s = Except.ok t → t.Sublist s := by
  obtain ⟨bs, ps, dl⟩ := conv
  simp only at h
  subst h
  constructor
  · simp only [Converter.convert]
    cases hsp : split s bs with
    | error e => rfl
    | ok ws => rfl
  · intro t hdl hconv
    simp only at hdl
    subst hdl
    simp only [Converter.convert] at hconv
    revert hconv
    cases hsp : split s bs with
    | error e => intro hconv; cases hconv
    | ok ws =>
      intro hconv
      cases hconv
      rw [joinList_nil]
      exact split_flatten_sublist hsp

/-- C10 witness: the characterisation applied to `Converter::new()` on
`"Ice-cream TRUCK"` (the doctest input of `Converter::new`), together with
the concrete conversion. -/
theorem convert_empty_patterns_w :
    Converter.new.patterns = [] ∧
    Converter.new.convert ("Ice-cream TRUCK".toList) =
      Except.ok ("IcecreamTRUCK".toList) ∧
    (Converter.new.convert ("Ice-cream TRUCK".toList) =
        (split ("Ice-cream TRUCK".toList) Converter.new.boundaries).map
          (joinList Converter.new.delimiter) ∧
      ∀ t, Converter.new.delimiter = [] →
        Converter.new.convert ("Ice-cream TRUCK".toList) = Except.ok t →
          t.Sublist ("Ice-cream TRUCK".toList)) :=
  ⟨rfl, rfl, convert_empty_patterns Converter.new ("Ice-cream TRUCK".toList) rfl⟩

end ConvertCase
